import Mathlib

/-!
Verification of the respy/robupy excerpt.

The numerical code operates on IEEE double values.  We embed those values
as an extended rational type with both infinities and a not-a-number
element, mirroring the IEEE behaviour of the operations actually used by
the code (addition, multiplication, division, ordering, max).
-/

set_option autoImplicit false

/-- Extended value type standing for IEEE doubles: a finite rational, the
two infinities, or not-a-number. -/
inductive FVal where
  | fin (q : ℚ)
  | pinf
  | ninf
  | nan
deriving DecidableEq, Repr

namespace FVal

/-- Addition with IEEE semantics: nan is absorbing, opposite infinities
give nan, an infinity absorbs finite values. -/
def add : FVal → FVal → FVal
  | .nan, _ => .nan
  | _, .nan => .nan
  | .fin a, .fin b => .fin (a + b)
  | .fin _, .pinf => .pinf
  | .fin _, .ninf => .ninf
  | .pinf, .fin _ => .pinf
  | .ninf, .fin _ => .ninf
  | .pinf, .pinf => .pinf
  | .ninf, .ninf => .ninf
  | .pinf, .ninf => .nan
  | .ninf, .pinf => .nan

/-- Multiplication with IEEE semantics: nan is absorbing and zero times
an infinity is nan. -/
def mul : FVal → FVal → FVal
  | .nan, _ => .nan
  | _, .nan => .nan
  | .fin a, .fin b => .fin (a * b)
  | .fin a, .pinf => if 0 < a then .pinf else if a < 0 then .ninf else .nan
  | .fin a, .ninf => if 0 < a then .ninf else if a < 0 then .pinf else .nan
  | .pinf, .fin b => if 0 < b then .pinf else if b < 0 then .ninf else .nan
  | .ninf, .fin b => if 0 < b then .ninf else if b < 0 then .pinf else .nan
  | .pinf, .pinf => .pinf
  | .pinf, .ninf => .ninf
  | .ninf, .pinf => .ninf
  | .ninf, .ninf => .pinf

/-- Division with IEEE semantics.  The code only ever divides by a
positive finite count, the remaining cases follow the IEEE rules. -/
def div : FVal → FVal → FVal
  | .nan, _ => .nan
  | _, .nan => .nan
  | .fin a, .fin b =>
      if b = 0 then (if a = 0 then .nan else if 0 < a then .pinf else .ninf)
      else .fin (a / b)
  | .fin _, .pinf => .fin 0
  | .fin _, .ninf => .fin 0
  | .pinf, .fin b => if b < 0 then .ninf else .pinf
  | .ninf, .fin b => if b < 0 then .pinf else .ninf
  | .pinf, .pinf => .nan
  | .pinf, .ninf => .nan
  | .ninf, .pinf => .nan
  | .ninf, .ninf => .nan

/-- Strict comparison with IEEE semantics: every comparison against nan
is false. -/
def lt : FVal → FVal → Bool
  | .nan, _ => false
  | _, .nan => false
  | .fin a, .fin b => decide (a < b)
  | .fin _, .pinf => true
  | .ninf, .fin _ => true
  | .ninf, .pinf => true
  | _, _ => false

/-- Test for negative infinity, the embedding of numpy isneginf. -/
def isNegInf : FVal → Bool
  | .ninf => true
  | _ => false

/-- Sum of a list of extended values, the reference form used to state
the averaging claim. -/
def sum (l : List FVal) : FVal := l.foldr add (fin 0)

theorem add_fin_zero (x : FVal) : x.add (fin 0) = x := by
  cases x <;> simp [add]

theorem fin_zero_add (x : FVal) : (fin 0).add x = x := by
  cases x <;> simp [add]

theorem add_assoc (x y z : FVal) : (x.add y).add z = x.add (y.add z) := by
  cases x <;> cases y <;> cases z <;> simp [add] <;> ring

end FVal

/-- Four-component vector of extended values, mirroring the payoff arrays
of length four in the legacy kernel; component i stands for index i. -/
structure Vec4 where
  c0 : FVal
  c1 : FVal
  c2 : FVal
  c3 : FVal
deriving DecidableEq, Repr

namespace Vec4

/-- Elementwise addition of two payoff vectors. -/
def add (u v : Vec4) : Vec4 :=
  ⟨u.c0.add v.c0, u.c1.add v.c1, u.c2.add v.c2, u.c3.add v.c3⟩

/-- Scalar multiplication, the embedding of delta times a payoff array. -/
def smul (d : FVal) (v : Vec4) : Vec4 :=
  ⟨d.mul v.c0, d.mul v.c1, d.mul v.c2, d.mul v.c3⟩

/-- Zero vector, the embedding of np.tile applied to zero and four. -/
def zero : Vec4 := ⟨.fin 0, .fin 0, .fin 0, .fin 0⟩

/-- One step of the Python builtin max loop: keep the current value
unless the next item compares strictly greater. -/
def pyMax2 (cur x : FVal) : FVal := if cur.lt x then x else cur

/-- Maximum of the four components as computed by the Python builtin max,
folding pyMax2 from the first component. -/
def pyMax (v : Vec4) : FVal := pyMax2 (pyMax2 (pyMax2 v.c0 v.c1) v.c2) v.c3

end Vec4

/-- State tuple of the legacy model: experience in the two occupations,
education, and the lagged education indicator. -/
structure KWState where
  exp_A : ℤ
  exp_B : ℤ
  edu : ℤ
  edu_lagged : ℤ
deriving DecidableEq, Repr

namespace Robupy

/-- Embedding of robupy get future payoffs: continuation values of the
four next-period candidate states, with negative infinity for schooling
once the maximum education constraint binds. -/
def get_future_payoffs (edu_max edu_start : ℤ)
    (mapping_state_idx : ℤ → ℤ → ℤ → ℤ → ℤ → ℤ) (period : ℤ)
    (emax : ℤ → ℤ → FVal) (k : ℤ) (states_all : ℤ → ℤ → KWState) : Vec4 :=
  let s := states_all period k
  let fp0 := emax (period + 1)
    (mapping_state_idx (period + 1) (s.exp_A + 1) s.exp_B s.edu 0)
  let fp1 := emax (period + 1)
    (mapping_state_idx (period + 1) s.exp_A (s.exp_B + 1) s.edu 0)
  let fp2 := if s.edu < edu_max - edu_start then
      emax (period + 1)
        (mapping_state_idx (period + 1) s.exp_A s.exp_B (s.edu + 1) 1)
    else FVal.ninf
  let fp3 := emax (period + 1)
    (mapping_state_idx (period + 1) s.exp_A s.exp_B s.edu 0)
  ⟨fp0, fp1, fp2, fp3⟩

/-- Embedding of robupy stabilize myopic: every component whose future
payoff is negative infinity is overwritten with negative infinity. -/
def stabilize_myopic (total_payoffs future_payoffs : Vec4) : Vec4 :=
  ⟨if future_payoffs.c0.isNegInf then FVal.ninf else total_payoffs.c0,
   if future_payoffs.c1.isNegInf then FVal.ninf else total_payoffs.c1,
   if future_payoffs.c2.isNegInf then FVal.ninf else total_payoffs.c2,
   if future_payoffs.c3.isNegInf then FVal.ninf else total_payoffs.c3⟩

/-- Embedding of robupy get total value, returning the triple of total
payoffs, ex post payoffs and future payoffs. -/
def get_total_value (period num_periods : ℤ) (delta : FVal)
    (payoffs_ex_ante disturbances : Vec4) (edu_max edu_start : ℤ)
    (mapping_state_idx : ℤ → ℤ → ℤ → ℤ → ℤ → ℤ) (emax : ℤ → ℤ → FVal)
    (k : ℤ) (states_all : ℤ → ℤ → KWState) : Vec4 × Vec4 × Vec4 :=
  let payoffs_ex_post : Vec4 :=
    ⟨payoffs_ex_ante.c0.mul disturbances.c0,
     payoffs_ex_ante.c1.mul disturbances.c1,
     payoffs_ex_ante.c2.add disturbances.c2,
     payoffs_ex_ante.c3.add disturbances.c3⟩
  let future_payoffs := if period ≠ num_periods - 1 then
      get_future_payoffs edu_max edu_start mapping_state_idx period emax k
        states_all
    else Vec4.zero
  let total_payoffs := payoffs_ex_post.add (Vec4.smul delta future_payoffs)
  let total_payoffs := if delta = FVal.fin 0 then
      stabilize_myopic total_payoffs future_payoffs
    else total_payoffs
  (total_payoffs, payoffs_ex_post, future_payoffs)

/-- Embedding of robupy simulate emax.  The two secondary containers are
initialized with a scalar placeholder in the source and overwritten on
every draw; we model the placeholder as none and a written vector as
some. -/
def simulate_emax (num_periods : ℤ) (num_draws : ℕ) (period k : ℤ)
    (eps_relevant : ℕ → Vec4) (payoffs_ex_ante : Vec4) (edu_max edu_start : ℤ)
    (emax : ℤ → ℤ → FVal) (states_all : ℤ → ℤ → KWState)
    (mapping_state_idx : ℤ → ℤ → ℤ → ℤ → ℤ → ℤ) (delta : FVal) :
    FVal × Option Vec4 × Option Vec4 :=
  let step := fun (acc : FVal × Option Vec4 × Option Vec4) (i : ℕ) =>
    let disturbances := eps_relevant i
    let r := get_total_value period num_periods delta payoffs_ex_ante
      disturbances edu_max edu_start mapping_state_idx emax k states_all
    (acc.1.add r.1.pyMax, some r.2.1, some r.2.2)
  let res := (List.range num_draws).foldl step (FVal.fin 0, none, none)
  (res.1.div (FVal.fin (num_draws : ℚ)), res.2.1, res.2.2)

end Robupy

theorem Robupy.foldl_emax_step_fst (r : ℕ → Vec4 × Vec4 × Vec4) (l : List ℕ)
    (acc : FVal × Option Vec4 × Option Vec4) :
    (l.foldl (fun acc i =>
        (acc.1.add (r i).1.pyMax, some (r i).2.1, some (r i).2.2)) acc).1
      = acc.1.add (FVal.sum (l.map (fun i => (r i).1.pyMax))) := by
  induction l generalizing acc with
  | nil => simp [FVal.sum, FVal.add_fin_zero]
  | cons a l ih =>
      simp only [List.foldl_cons, List.map_cons]
      rw [ih]
      simp [FVal.sum, FVal.add_assoc]

/-- C1: with at least one draw, the first return value of simulate emax
equals the sum over all draws of the maximum of the total payoffs that
get total value computes for the disturbance row of that draw, divided by
the number of draws, which is the arithmetic mean of the per-draw
maxima. -/
theorem Robupy.simulate_emax_is_mean_of_maxima
    (num_periods : ℤ) (num_draws : ℕ) (period k : ℤ)
    (eps_relevant : ℕ → Vec4) (payoffs_ex_ante : Vec4) (edu_max edu_start : ℤ)
    (emax : ℤ → ℤ → FVal) (states_all : ℤ → ℤ → KWState)
    (mapping_state_idx : ℤ → ℤ → ℤ → ℤ → ℤ → ℤ) (delta : FVal)
    (hnd : 1 ≤ num_draws) :
    (Robupy.simulate_emax num_periods num_draws period k eps_relevant
        payoffs_ex_ante edu_max edu_start emax states_all mapping_state_idx
        delta).1
      = FVal.div
          (FVal.sum ((List.range num_draws).map (fun i =>
            (Robupy.get_total_value period num_periods delta payoffs_ex_ante
              (eps_relevant i) edu_max edu_start mapping_state_idx emax k
              states_all).1.pyMax)))
          (FVal.fin (num_draws : ℚ)) := by
  simp only [Robupy.simulate_emax]
  rw [Robupy.foldl_emax_step_fst (fun i =>
    Robupy.get_total_value period num_periods delta payoffs_ex_ante
      (eps_relevant i) edu_max edu_start mapping_state_idx emax k states_all)]
  rw [FVal.fin_zero_add]

theorem Robupy.simulate_emax_is_mean_of_maxima_witness :
    1 ≤ 2 ∧
    (Robupy.simulate_emax 1 2 0 0
        (fun i => if i = 0 then ⟨.fin 1, .fin 2, .fin 3, .fin 4⟩
          else ⟨.fin 5, .fin 1, .fin 1, .fin 1⟩)
        ⟨.fin 2, .fin 2, .fin 2, .fin 2⟩ 10 10 (fun _ _ => .fin 0)
        (fun _ _ => ⟨0, 0, 0, 0⟩) (fun _ _ _ _ _ => 0)
        (.fin (95 / 100))).1
      = FVal.div
          (FVal.sum ((List.range 2).map (fun i =>
            (Robupy.get_total_value 0 1 (.fin (95 / 100))
              ⟨.fin 2, .fin 2, .fin 2, .fin 2⟩
              ((fun i => if i = 0 then ⟨.fin 1, .fin 2, .fin 3, .fin 4⟩
                else ⟨.fin 5, .fin 1, .fin 1, .fin 1⟩) i)
              10 10 (fun _ _ _ _ _ => 0) (fun _ _ => .fin 0) 0
              (fun _ _ => ⟨0, 0, 0, 0⟩)).1.pyMax)))
          (FVal.fin ((2 : ℕ) : ℚ)) :=
  ⟨by decide,
    Robupy.simulate_emax_is_mean_of_maxima 1 2 0 0
      (fun i => if i = 0 then ⟨.fin 1, .fin 2, .fin 3, .fin 4⟩
        else ⟨.fin 5, .fin 1, .fin 1, .fin 1⟩)
      ⟨.fin 2, .fin 2, .fin 2, .fin 2⟩ 10 10 (fun _ _ => .fin 0)
      (fun _ _ => ⟨0, 0, 0, 0⟩) (fun _ _ _ _ _ => 0) (.fin (95 / 100))
      (by decide)⟩

theorem Vec4.smul_fin_zero_vec (d : ℚ) :
    Vec4.smul (FVal.fin d) Vec4.zero = Vec4.zero := by
  simp [Vec4.smul, Vec4.zero, FVal.mul]

theorem Vec4.add_zero_vec (v : Vec4) : v.add Vec4.zero = v := by
  cases v
  simp [Vec4.add, Vec4.zero, FVal.add_fin_zero]

theorem Robupy.stabilize_myopic_zero_future (v : Vec4) :
    Robupy.stabilize_myopic v Vec4.zero = v := by
  cases v
  simp [Robupy.stabilize_myopic, Vec4.zero, FVal.isNegInf]

/-- C2: in the terminal period and for a finite discount factor, get
total value returns a zero future payoff vector and total payoffs equal
to the ex post payoffs. -/
theorem Robupy.get_total_value_terminal_period
    (period num_periods : ℤ) (d : ℚ) (payoffs_ex_ante disturbances : Vec4)
    (edu_max edu_start : ℤ) (mapping_state_idx : ℤ → ℤ → ℤ → ℤ → ℤ → ℤ)
    (emax : ℤ → ℤ → FVal) (k : ℤ) (states_all : ℤ → ℤ → KWState)
    (hp : period = num_periods - 1) :
    (Robupy.get_total_value period num_periods (FVal.fin d) payoffs_ex_ante
        disturbances edu_max edu_start mapping_state_idx emax k
        states_all).2.2 = Vec4.zero ∧
    (Robupy.get_total_value period num_periods (FVal.fin d) payoffs_ex_ante
        disturbances edu_max edu_start mapping_state_idx emax k
        states_all).1
      = (Robupy.get_total_value period num_periods (FVal.fin d)
          payoffs_ex_ante disturbances edu_max edu_start mapping_state_idx
          emax k states_all).2.1 := by
  subst hp
  constructor
  · simp [Robupy.get_total_value]
  · simp [Robupy.get_total_value, Vec4.smul_fin_zero_vec, Vec4.add_zero_vec,
      Robupy.stabilize_myopic_zero_future]

theorem Robupy.get_total_value_terminal_period_witness :
    ((1 : ℤ) = 2 - 1) ∧
    ((Robupy.get_total_value 1 2 (FVal.fin 0)
        ⟨.fin 3, .fin 4, .fin 5, .fin 6⟩ ⟨.fin 2, .fin (-1), .fin 7, .fin 0⟩
        11 10 (fun _ _ _ _ _ => 0) (fun _ _ => .fin 9) 0
        (fun _ _ => ⟨0, 0, 1, 0⟩)).2.2 = Vec4.zero ∧
     (Robupy.get_total_value 1 2 (FVal.fin 0)
        ⟨.fin 3, .fin 4, .fin 5, .fin 6⟩ ⟨.fin 2, .fin (-1), .fin 7, .fin 0⟩
        11 10 (fun _ _ _ _ _ => 0) (fun _ _ => .fin 9) 0
        (fun _ _ => ⟨0, 0, 1, 0⟩)).1
       = (Robupy.get_total_value 1 2 (FVal.fin 0)
           ⟨.fin 3, .fin 4, .fin 5, .fin 6⟩ ⟨.fin 2, .fin (-1), .fin 7, .fin 0⟩
           11 10 (fun _ _ _ _ _ => 0) (fun _ _ => .fin 9) 0
           (fun _ _ => ⟨0, 0, 1, 0⟩)).2.1) :=
  ⟨by decide,
    Robupy.get_total_value_terminal_period 1 2 0
      ⟨.fin 3, .fin 4, .fin 5, .fin 6⟩ ⟨.fin 2, .fin (-1), .fin 7, .fin 0⟩
      11 10 (fun _ _ _ _ _ => 0) (fun _ _ => .fin 9) 0
      (fun _ _ => ⟨0, 0, 1, 0⟩) (by decide)⟩

/-- C3: in a non-terminal period with the maximum education constraint
binding, the schooling component of the future payoffs is exactly
negative infinity, and with a zero discount factor the schooling
component of the total payoffs is negative infinity as well. -/
theorem Robupy.get_total_value_max_edu_neg_inf
    (period num_periods : ℤ) (delta : FVal)
    (payoffs_ex_ante disturbances : Vec4) (edu_max edu_start : ℤ)
    (mapping_state_idx : ℤ → ℤ → ℤ → ℤ → ℤ → ℤ) (emax : ℤ → ℤ → FVal)
    (k : ℤ) (states_all : ℤ → ℤ → KWState)
    (hp : period ≠ num_periods - 1)
    (he : (states_all period k).edu = edu_max - edu_start) :
    (Robupy.get_total_value period num_periods delta payoffs_ex_ante
        disturbances edu_max edu_start mapping_state_idx emax k
        states_all).2.2.c2 = FVal.ninf ∧
    (delta = FVal.fin 0 →
      (Robupy.get_total_value period num_periods delta payoffs_ex_ante
          disturbances edu_max edu_start mapping_state_idx emax k
          states_all).1.c2 = FVal.ninf) := by
  have hfut : (Robupy.get_future_payoffs edu_max edu_start mapping_state_idx
      period emax k states_all).c2 = FVal.ninf := by
    simp [Robupy.get_future_payoffs, he]
  constructor
  · simp [Robupy.get_total_value, hp, hfut]
  · intro hd
    subst hd
    simp [Robupy.get_total_value, hp, Robupy.stabilize_myopic, hfut,
      FVal.isNegInf]

theorem Robupy.get_total_value_max_edu_neg_inf_witness :
    ((0 : ℤ) ≠ 2 - 1) ∧
    (((fun (_ : ℤ) (_ : ℤ) => (⟨0, 0, 1, 0⟩ : KWState)) 0 0).edu
       = 11 - 10) ∧
    ((Robupy.get_total_value 0 2 (FVal.fin 0)
        ⟨.fin 3, .fin 4, .fin 5, .fin 6⟩ ⟨.fin 2, .fin (-1), .fin 7, .fin 0⟩
        11 10 (fun _ _ _ _ _ => 0) (fun _ _ => .fin 9) 0
        (fun _ _ => ⟨0, 0, 1, 0⟩)).2.2.c2 = FVal.ninf ∧
     (FVal.fin 0 = FVal.fin 0 →
       (Robupy.get_total_value 0 2 (FVal.fin 0)
          ⟨.fin 3, .fin 4, .fin 5, .fin 6⟩ ⟨.fin 2, .fin (-1), .fin 7, .fin 0⟩
          11 10 (fun _ _ _ _ _ => 0) (fun _ _ => .fin 9) 0
          (fun _ _ => ⟨0, 0, 1, 0⟩)).1.c2 = FVal.ninf)) :=
  ⟨by decide, by decide,
    Robupy.get_total_value_max_edu_neg_inf 0 2 (FVal.fin 0)
      ⟨.fin 3, .fin 4, .fin 5, .fin 6⟩ ⟨.fin 2, .fin (-1), .fin 7, .fin 0⟩
      11 10 (fun _ _ _ _ _ => 0) (fun _ _ => .fin 9) 0
      (fun _ _ => ⟨0, 0, 1, 0⟩) (by decide) (by decide)⟩

namespace Respy

/-- Selection of the entries of a list at the positions where a boolean
mask is true, the embedding of numpy boolean indexing. -/
def maskSelect {α : Type} : List Bool → List α → List α
  | true :: ms, x :: xs => x :: maskSelect ms xs
  | false :: ms, _ :: xs => maskSelect ms xs
  | _, _ => []

/-- Replacement of the entries of a list at the positions where a boolean
mask is true with the successive entries of a replacement list, the
embedding of numpy boolean mask assignment. -/
def maskAssign {α : Type} : List Bool → List α → List α → List α
  | true :: ms, b :: bs, rs => rs.headD b :: maskAssign ms bs rs.tail
  | false :: ms, b :: bs, rs => b :: maskAssign ms bs rs
  | _, bs, _ => bs

/-- Dot product of two rational vectors. -/
def dot (xs ys : List ℚ) : ℚ := ((xs.zip ys).map (fun p => p.1 * p.2)).sum

/-- Product of a row-major matrix with a vector. -/
def matVec (m : List (List ℚ)) (v : List ℚ) : List ℚ :=
  m.map (fun row => dot row v)

/-- Product of two row-major matrices. -/
def matMul (a b : List (List ℚ)) : List (List ℚ) :=
  a.map (fun row => b.transpose.map (fun col => dot row col))

/-- Embedding of the ols helper.  The Moore Penrose pseudo-inverse is an
external library routine and is kept abstract as the parameter pinv. -/
def ols (pinv : List (List ℚ) → List (List ℚ)) (y : List ℚ)
    (x : List (List ℚ)) : List ℚ :=
  matVec (pinv (matMul x.transpose x)) (matVec x.transpose y)

/-- Embedding of predict with linear model: fit on the not interpolated
subset, predict everywhere, clip the predictions below at zero, add back
the maxima, and overwrite the not interpolated states with their exact
simulated values. -/
def predict_with_linear_model (pinv : List (List ℚ) → List (List ℚ))
    (endogenous : List ℚ) (exogenous : List (List ℚ))
    (max_value_functions : List ℚ) (not_interpolated : List Bool) :
    List ℚ :=
  let beta := ols pinv endogenous (maskSelect not_interpolated exogenous)
  let endogenous_predicted := (matVec exogenous beta).map (fun q => max q 0)
  let predictions :=
    List.zipWith (fun a b => a + b) endogenous_predicted max_value_functions
  maskAssign not_interpolated predictions
    (List.zipWith (fun a b => a + b) endogenous
      (maskSelect not_interpolated max_value_functions))

theorem maskAssign_length {α : Type} (ms : List Bool) (bs rs : List α) :
    (maskAssign ms bs rs).length = bs.length := by
  induction ms generalizing bs rs with
  | nil => rfl
  | cons m ms ih =>
      cases bs with
      | nil => cases m <;> rfl
      | cons b bs => cases m <;> simp [maskAssign, ih]

theorem maskAssign_getD_of_false {α : Type} (ms : List Bool)
    (bs rs : List α) (i : ℕ) (d : α) (h : ms.getD i false = false) :
    (maskAssign ms bs rs).getD i d = bs.getD i d := by
  induction ms generalizing bs rs i with
  | nil => rfl
  | cons m ms ih =>
      cases bs with
      | nil => cases m <;> rfl
      | cons b bs =>
          cases m with
          | false =>
              cases i with
              | zero => simp [maskAssign]
              | succ i =>
                  simp only [List.getD_cons_succ] at h
                  simp only [maskAssign, List.getD_cons_succ]
                  exact ih bs rs i h
          | true =>
              cases i with
              | zero => simp at h
              | succ i =>
                  simp only [List.getD_cons_succ] at h
                  simp only [maskAssign, List.getD_cons_succ]
                  exact ih bs rs.tail i h

theorem maskAssign_getD_of_true {α : Type} (ms : List Bool)
    (bs rs : List α) (i : ℕ) (d : α) (h : ms.getD i false = true)
    (hlen : ms.length = bs.length)
    (hr : (ms.take i).count true < rs.length) :
    (maskAssign ms bs rs).getD i d
      = rs.getD ((ms.take i).count true) d := by
  induction ms generalizing bs rs i with
  | nil => simp [List.getD] at h
  | cons m ms ih =>
      cases bs with
      | nil => simp at hlen
      | cons b bs =>
          cases m with
          | true =>
              cases rs with
              | nil => simp at hr
              | cons r rt =>
                  cases i with
                  | zero => simp [maskAssign]
                  | succ i =>
                      simp only [List.getD_cons_succ] at h
                      have hlen2 : ms.length = bs.length := by simpa using hlen
                      have hr2 : (ms.take i).count true < rt.length := by
                        simpa [List.take_succ_cons, List.count_cons_self]
                          using hr
                      simp only [maskAssign, List.getD_cons_succ,
                        List.take_succ_cons, List.count_cons_self,
                        List.headD, List.tail]
                      exact ih bs rt i h hlen2 hr2
          | false =>
              cases i with
              | zero => simp at h
              | succ i =>
                  simp only [List.getD_cons_succ] at h
                  have hlen2 : ms.length = bs.length := by simpa using hlen
                  have hr2 : (ms.take i).count true < rs.length := by
                    simpa [List.take_succ_cons,
                      List.count_cons_of_ne (by decide : (true : Bool) ≠ false)]
                      using hr
                  simp only [maskAssign, List.getD_cons_succ,
                    List.take_succ_cons,
                    List.count_cons_of_ne (by decide : (true : Bool) ≠ false)]
                  exact ih bs rs i h hlen2 hr2

theorem maskSelect_length {α : Type} (ms : List Bool) (xs : List α)
    (hlen : ms.length = xs.length) :
    (maskSelect ms xs).length = ms.count true := by
  induction ms generalizing xs with
  | nil => simp [maskSelect]
  | cons m ms ih =>
      cases xs with
      | nil => simp at hlen
      | cons x xs =>
          have hlen2 : ms.length = xs.length := by simpa using hlen
          cases m with
          | true =>
              simp [maskSelect, ih xs hlen2, List.count_cons_self]
          | false =>
              simp [maskSelect, ih xs hlen2,
                List.count_cons_of_ne (by decide : (true : Bool) ≠ false)]

theorem maskSelect_getD_of_true {α : Type} (ms : List Bool)
    (xs : List α) (i : ℕ) (d : α) (h : ms.getD i false = true)
    (hlen : ms.length = xs.length) :
    (maskSelect ms xs).getD ((ms.take i).count true) d = xs.getD i d := by
  induction ms generalizing xs i with
  | nil => simp [List.getD] at h
  | cons m ms ih =>
      cases xs with
      | nil => simp at hlen
      | cons x xs =>
          have hlen2 : ms.length = xs.length := by simpa using hlen
          cases m with
          | true =>
              cases i with
              | zero => simp [maskSelect]
              | succ i =>
                  simp only [List.getD_cons_succ] at h
                  simp only [maskSelect, List.take_succ_cons,
                    List.count_cons_self, List.getD_cons_succ]
                  exact ih xs i h hlen2
          | false =>
              cases i with
              | zero => simp at h
              | succ i =>
                  simp only [List.getD_cons_succ] at h
                  simp only [maskSelect, List.take_succ_cons,
                    List.count_cons_of_ne (by decide : (true : Bool) ≠ false),
                    List.getD_cons_succ]
                  exact ih xs i h hlen2

theorem count_take_lt (ms : List Bool) (i : ℕ)
    (h : ms.getD i false = true) :
    (ms.take i).count true < ms.count true := by
  induction ms generalizing i with
  | nil => simp [List.getD] at h
  | cons m ms ih =>
      cases i with
      | zero =>
          have hm : m = true := by simpa using h
          subst hm
          simp [List.count_cons_self]
      | succ i =>
          simp only [List.getD_cons_succ] at h
          cases m with
          | true =>
              have := ih i h
              simp only [List.take_succ_cons, List.count_cons_self]
              omega
          | false =>
              have := ih i h
              simpa [List.take_succ_cons,
                List.count_cons_of_ne (by decide : (true : Bool) ≠ false)]
                using this

theorem getD_zipWith_add (as bs : List ℚ) (i : ℕ)
    (ha : i < as.length) (hb : i < bs.length) :
    (List.zipWith (fun a b => a + b) as bs).getD i 0
      = as.getD i 0 + bs.getD i 0 := by
  induction as generalizing bs i with
  | nil => simp at ha
  | cons a as ih =>
      cases bs with
      | nil => simp at hb
      | cons b bs =>
          cases i with
          | zero => simp
          | succ i =>
              simpa using ih bs i (by simpa using ha) (by simpa using hb)

theorem getD_map_clip (l : List ℚ) (i : ℕ) (h : i < l.length) :
    (l.map (fun q => max q 0)).getD i 0 = max (l.getD i 0) 0 := by
  induction l generalizing i with
  | nil => simp at h
  | cons a l ih =>
      cases i with
      | zero => simp
      | succ i => simpa using ih i (by simpa using h)

end Respy

/-- C4: the array returned by predict with linear model equals, at every
index where the state is not interpolated, exactly the endogenous value
of that state plus its maximum value function, and at every interpolated
index the maximum value function plus the ols prediction clipped below
at zero. -/
theorem Respy.predict_with_linear_model_spec
    (pinv : List (List ℚ) → List (List ℚ))
    (endogenous : List ℚ) (exogenous : List (List ℚ))
    (max_value_functions : List ℚ) (not_interpolated : List Bool)
    (n i : ℕ)
    (hmask : not_interpolated.length = n)
    (hexo : exogenous.length = n)
    (hmax : max_value_functions.length = n)
    (hendo : endogenous.length = not_interpolated.count true)
    (hi : i < n) :
    (not_interpolated.getD i false = true →
      (Respy.predict_with_linear_model pinv endogenous exogenous
          max_value_functions not_interpolated).getD i 0
        = endogenous.getD ((not_interpolated.take i).count true) 0
          + max_value_functions.getD i 0) ∧
    (not_interpolated.getD i false = false →
      (Respy.predict_with_linear_model pinv endogenous exogenous
          max_value_functions not_interpolated).getD i 0
        = max ((Respy.matVec exogenous (Respy.ols pinv endogenous
              (Respy.maskSelect not_interpolated exogenous))).getD i 0) 0
          + max_value_functions.getD i 0) := by
  have hsel : (Respy.maskSelect not_interpolated max_value_functions).length
      = not_interpolated.count true :=
    Respy.maskSelect_length _ _ (hmask.trans hmax.symm)
  constructor
  · intro ht
    have hlenP : not_interpolated.length
        = (List.zipWith (fun a b => a + b)
            ((Respy.matVec exogenous (Respy.ols pinv endogenous
                (Respy.maskSelect not_interpolated exogenous))).map
              (fun q => max q 0))
            max_value_functions).length := by
      simp [Respy.matVec, hmask, hexo, hmax]
    have hrP : (not_interpolated.take i).count true
        < (List.zipWith (fun a b => a + b) endogenous
            (Respy.maskSelect not_interpolated max_value_functions)).length := by
      simp only [List.length_zipWith, hendo, hsel, Nat.min_self]
      exact Respy.count_take_lt not_interpolated i ht
    simp only [Respy.predict_with_linear_model]
    rw [Respy.maskAssign_getD_of_true _ _ _ i 0 ht hlenP hrP]
    rw [Respy.getD_zipWith_add _ _ _
      (by rw [hendo]; exact Respy.count_take_lt not_interpolated i ht)
      (by rw [hsel]; exact Respy.count_take_lt not_interpolated i ht)]
    rw [Respy.maskSelect_getD_of_true _ _ _ _ ht (hmask.trans hmax.symm)]
  · intro hf
    simp only [Respy.predict_with_linear_model]
    rw [Respy.maskAssign_getD_of_false _ _ _ _ _ hf]
    rw [Respy.getD_zipWith_add _ _ _
      (by simpa [Respy.matVec, hexo] using hi)
      (by rw [hmax]; exact hi)]
    rw [Respy.getD_map_clip _ _ (by simpa [Respy.matVec, hexo] using hi)]

theorem Respy.predict_with_linear_model_spec_witness :
    (([true, false] : List Bool).length = 2) ∧
    ((([true, false] : List Bool).getD 0 false = true →
      (Respy.predict_with_linear_model (fun m => m) [5] [[1], [2]] [10, 20]
          [true, false]).getD 0 0
        = ([5] : List ℚ).getD
            ((([true, false] : List Bool).take 0).count true) 0
          + ([10, 20] : List ℚ).getD 0 0) ∧
     (([true, false] : List Bool).getD 0 false = false →
      (Respy.predict_with_linear_model (fun m => m) [5] [[1], [2]] [10, 20]
          [true, false]).getD 0 0
        = max ((Respy.matVec [[1], [2]] (Respy.ols (fun m => m) [5]
              (Respy.maskSelect [true, false] [[1], [2]]))).getD 0 0) 0
          + ([10, 20] : List ℚ).getD 0 0)) :=
  ⟨by decide,
    Respy.predict_with_linear_model_spec (fun m => m) [5] [[1], [2]]
      [10, 20] [true, false] 2 0 (by decide) (by decide) (by decide)
      (by decide) (by decide)⟩

namespace Admissible

/-- Python value universe for the command line argument checks: booleans,
integers, floats, strings and lists of values. -/
inductive PyVal where
  | bool (b : Bool)
  | int (n : ℤ)
  | float (q : ℚ)
  | str (s : String)
  | list (xs : List PyVal)

/-- Numeric view of a Python value: booleans count as zero or one, so
they compare numerically against integers and floats. -/
def pyNum : PyVal → Option ℚ
  | .bool b => some (if b then 1 else 0)
  | .int n => some (n : ℚ)
  | .float q => some q
  | _ => none

/-- Python equality as used by the membership checks: numeric values
compare by value, strings by content, everything else is unequal. -/
def pyEq (x y : PyVal) : Bool :=
  match pyNum x, pyNum y with
  | some a, some b => a == b
  | _, _ =>
      match x, y with
      | .str s, .str t => s == t
      | _, _ => false

/-- Python truthiness of a value, as numpy applies it elementwise. -/
def pyTruthy : PyVal → Bool
  | .bool b => b
  | .int n => n != 0
  | .float q => q != 0
  | .str s => s != ""
  | .list xs => !xs.isEmpty

/-- Embedding of np.all over a list: a single boolean that is true when
every element is truthy. -/
def npAll (xs : List PyVal) : Bool := xs.all pyTruthy

/-- Embedding of the levels assertion as written in the source: the one
boolean produced by np.all is compared numerically against zero. -/
def boolGeZero (b : Bool) : Bool := decide ((if b then (1 : ℚ) else 0) ≥ 0)

/-- Test whether a value is a Python list. -/
def isList : PyVal → Bool
  | .list _ => true
  | _ => false

/-- Test whether a value is a Python int; booleans are instances of the
int type in Python. -/
def isInt : PyVal → Bool
  | .int _ => true
  | .bool _ => true
  | _ => false

/-- Strictly positive numeric value. -/
def pyGtZero (x : PyVal) : Bool :=
  match pyNum x with
  | some a => decide (0 < a)
  | none => false

/-- Elements of a Python list value. -/
def pyListElems : PyVal → List PyVal
  | .list xs => xs
  | _ => []

/-- Parsed argument bundle as handed over by the argument parser. -/
structure Args where
  is_recompile : PyVal
  num_procs : PyVal
  is_debug : PyVal
  levels : PyVal
  spec : PyVal

/-- Embedding of distribute arguments: runs the assertion checks in
source order and returns the unpacked tuple, or none when an assertion
fails. -/
def distribute_arguments (args : Args) :
    Option (PyVal × PyVal × PyVal × PyVal × PyVal) :=
  if isList args.levels
      && boolGeZero (npAll (pyListElems args.levels))
      && (pyEq args.is_recompile (.bool true)
          || pyEq args.is_recompile (.bool false))
      && (pyEq args.is_debug (.bool true) || pyEq args.is_debug (.bool false))
      && isInt args.num_procs
      && pyGtZero args.num_procs
      && (pyEq args.spec (.str "one") || pyEq args.spec (.str "two")
          || pyEq args.spec (.str "three"))
  then some (args.levels, args.is_recompile, args.is_debug, args.num_procs,
    args.spec)
  else none

/-- Ambiguity grid constant of the admissible values module. -/
def AMBIGUITY_GRID : List ℚ := [0, 1 / 100, 2 / 100]

/-- Choice list constant of the admissible values module. -/
def CHOICE_LIST : List String :=
  ["Occupation A", "Occupation B", "School", "Home"]

/-- Bounds list constant of the admissible values module. -/
def BOUNDS_LIST : List String := ["lower", "upper"]

/-- Embedding of extract results: assert the three vocabularies, then
index the results mapping at the level, the position of the choice in
the choice list and the position of the bound kind in the bounds
list. -/
def extract_results (level : ℚ) (choice which : String)
    (rslts : ℚ → List (List ℚ)) : Option ℚ :=
  if level ∈ AMBIGUITY_GRID ∧ choice ∈ CHOICE_LIST ∧ which ∈ BOUNDS_LIST then
    some (((rslts level).getD (CHOICE_LIST.indexOf choice) []).getD
      (BOUNDS_LIST.indexOf which) 0)
  else none

end Admissible

/-- C5: an argument bundle whose levels list contains a negative number
is accepted by distribute arguments, because the assertion compares the
single boolean produced by np.all against zero instead of comparing the
elements, so the claimed rejection of negative levels does not occur. -/
theorem Admissible.distribute_arguments_accepts_negative_level :
    Admissible.distribute_arguments
        ⟨.bool true, .int 1, .bool false, .list [.float (-1)], .str "one"⟩
      = some (.list [.float (-1)], .bool true, .bool false, .int 1,
          .str "one") := by
  rfl

/-- C8: extract results fails for any out-of-vocabulary level, choice or
bound kind, and for in-vocabulary arguments returns the entry of the
results mapping at the level, at the position of the choice and at the
position of the bound kind. -/
theorem Admissible.extract_results_spec (level : ℚ) (choice which : String)
    (rslts : ℚ → List (List ℚ)) :
    (level ∉ Admissible.AMBIGUITY_GRID ∨ choice ∉ Admissible.CHOICE_LIST ∨
        which ∉ Admissible.BOUNDS_LIST →
      Admissible.extract_results level choice which rslts = none) ∧
    (∀ (l : Fin 3) (i : Fin 4) (j : Fin 2),
      Admissible.extract_results (Admissible.AMBIGUITY_GRID.getD l 0)
          (Admissible.CHOICE_LIST.getD i "")
          (Admissible.BOUNDS_LIST.getD j "") rslts
        = some (((rslts (Admissible.AMBIGUITY_GRID.getD l 0)).getD i []).getD
            j 0)) := by
  constructor
  · intro ho
    rcases ho with h | h | h <;> simp [Admissible.extract_results, h]
  · intro l i j
    fin_cases l <;> fin_cases i <;> fin_cases j <;>
      · simp only [Admissible.extract_results]
        split
        · rfl
        · rename_i hcond
          refine absurd ⟨?_, by decide, by decide⟩ hcond
          norm_num [Admissible.AMBIGUITY_GRID]

theorem Admissible.extract_results_spec_witness :
    Admissible.extract_results 5 "School" "upper"
        (fun _ => [[1, 2], [3, 4], [5, 6], [7, 8]]) = none ∧
    Admissible.extract_results (1 / 100) "School" "upper"
        (fun _ => [[1, 2], [3, 4], [5, 6], [7, 8]]) = some 6 :=
  ⟨(Admissible.extract_results_spec 5 "School" "upper"
      (fun _ => [[1, 2], [3, 4], [5, 6], [7, 8]])).1
     (Or.inl (by norm_num [Admissible.AMBIGUITY_GRID])),
   (Admissible.extract_results_spec (1 / 100) "School" "upper"
      (fun _ => [[1, 2], [3, 4], [5, 6], [7, 8]])).2 1 2 1⟩

namespace Admissible

/-- One printed row of the admissible values log: the choice label and
the lower, baseline and upper numbers handed to the format string. -/
structure LogRow where
  choice : String
  lower : ℚ
  baseline : ℚ
  upper : ℚ

/-- One block of the admissible values log: the level of the header line
followed by one row per choice. -/
structure LogBlock where
  level : ℚ
  rows : List LogRow

/-- Dictionary lookup in the results mapping, modeled on an association
list: the value of the first pair carrying the key. -/
def dictGet (rslt : List (ℚ × List (ℚ × ℚ))) (level : ℚ) :
    Option (List (ℚ × ℚ)) :=
  (rslt.find? (fun p => p.1 == level)).map Prod.snd

/-- Option-valued map over a list, failing as soon as one element fails,
the embedding of a Python loop whose body may raise. -/
def optMap {α β : Type} (f : α → Option β) : List α → Option (List β)
  | [] => some []
  | a :: l =>
      match f a, optMap f l with
      | some b, some bs => some (b :: bs)
      | _, _ => none

/-- One row of a level block, in source order: the baseline is read from
position i of the level zero entry of the results mapping, then the
lower and upper bounds from position i of the entry at the level of the
block. -/
def storeRow (rslt : List (ℚ × List (ℚ × ℚ))) (level : ℚ) (i : ℕ)
    (choice : String) : Option LogRow := do
  let base ← dictGet rslt 0
  let pb ← base.get? i
  let lv ← dictGet rslt level
  let pl ← lv.get? i
  pure ⟨choice, pl.1, pb.1, pl.2⟩

/-- Embedding of the log written by store rslts: one block per level in
dictionary order, each with one row per enumerated choice; none when a
dictionary or position lookup fails where the source would raise. -/
def store_rslts (rslt : List (ℚ × List (ℚ × ℚ))) : Option (List LogBlock) :=
  optMap (fun p =>
    (optMap (fun ic => storeRow rslt p.1 ic.1 ic.2) CHOICE_LIST.enum).map
      (fun rows => LogBlock.mk p.1 rows)) rslt

theorem optMap_cons_some {α β : Type} (f : α → Option β) (a : α)
    (l : List α) (b : β) (bs : List β) (h1 : f a = some b)
    (h2 : optMap f l = some bs) : optMap f (a :: l) = some (b :: bs) := by
  simp [optMap, h1, h2]

theorem dictGet_eq_some_of_mem (rslt : List (ℚ × List (ℚ × ℚ)))
    (p : ℚ × List (ℚ × ℚ)) (hp : p ∈ rslt) :
    ∃ lv, dictGet rslt p.1 = some lv := by
  have hs : (rslt.find? (fun q => q.1 == p.1)).isSome := by
    rw [List.find?_isSome]
    exact ⟨p, hp, by simp⟩
  rcases Option.isSome_iff_exists.1 hs with ⟨q, hq⟩
  exact ⟨q.2, by simp [dictGet, hq]⟩

theorem mem_snd_of_dictGet_eq_some (rslt : List (ℚ × List (ℚ × ℚ)))
    (key : ℚ) (v : List (ℚ × ℚ)) (h : dictGet rslt key = some v) :
    ∃ q ∈ rslt, q.2 = v := by
  rcases Option.map_eq_some'.1 h with ⟨q, hq, hv⟩
  exact ⟨q, List.mem_of_find?_eq_some hq, hv⟩

theorem storeRows_eq (rslt : List (ℚ × List (ℚ × ℚ))) (level : ℚ)
    (base lv : List (ℚ × ℚ))
    (hbase : dictGet rslt 0 = some base) (hb : 4 ≤ base.length)
    (hlv : dictGet rslt level = some lv) (hl : 4 ≤ lv.length) :
    optMap (fun ic => storeRow rslt level ic.1 ic.2) CHOICE_LIST.enum
      = some
        [⟨"Occupation A", (lv.get ⟨0, by omega⟩).1, (base.get ⟨0, by omega⟩).1,
          (lv.get ⟨0, by omega⟩).2⟩,
         ⟨"Occupation B", (lv.get ⟨1, by omega⟩).1, (base.get ⟨1, by omega⟩).1,
          (lv.get ⟨1, by omega⟩).2⟩,
         ⟨"School", (lv.get ⟨2, by omega⟩).1, (base.get ⟨2, by omega⟩).1,
          (lv.get ⟨2, by omega⟩).2⟩,
         ⟨"Home", (lv.get ⟨3, by omega⟩).1, (base.get ⟨3, by omega⟩).1,
          (lv.get ⟨3, by omega⟩).2⟩] := by
  have henum : CHOICE_LIST.enum
      = [(0, "Occupation A"), (1, "Occupation B"), (2, "School"),
         (3, "Home")] := rfl
  have r0 : storeRow rslt level 0 "Occupation A"
      = some ⟨"Occupation A", (lv.get ⟨0, by omega⟩).1,
          (base.get ⟨0, by omega⟩).1, (lv.get ⟨0, by omega⟩).2⟩ := by
    simp [storeRow, hbase, hlv,
      List.getElem?_eq_getElem (show 0 < base.length by omega),
      List.getElem?_eq_getElem (show 0 < lv.length by omega)]
  have r1 : storeRow rslt level 1 "Occupation B"
      = some ⟨"Occupation B", (lv.get ⟨1, by omega⟩).1,
          (base.get ⟨1, by omega⟩).1, (lv.get ⟨1, by omega⟩).2⟩ := by
    simp [storeRow, hbase, hlv,
      List.getElem?_eq_getElem (show 1 < base.length by omega),
      List.getElem?_eq_getElem (show 1 < lv.length by omega)]
  have r2 : storeRow rslt level 2 "School"
      = some ⟨"School", (lv.get ⟨2, by omega⟩).1,
          (base.get ⟨2, by omega⟩).1, (lv.get ⟨2, by omega⟩).2⟩ := by
    simp [storeRow, hbase, hlv,
      List.getElem?_eq_getElem (show 2 < base.length by omega),
      List.getElem?_eq_getElem (show 2 < lv.length by omega)]
  have r3 : storeRow rslt level 3 "Home"
      = some ⟨"Home", (lv.get ⟨3, by omega⟩).1,
          (base.get ⟨3, by omega⟩).1, (lv.get ⟨3, by omega⟩).2⟩ := by
    simp [storeRow, hbase, hlv,
      List.getElem?_eq_getElem (show 3 < base.length by omega),
      List.getElem?_eq_getElem (show 3 < lv.length by omega)]
  rw [henum]
  simp [optMap, r0, r1, r2, r3]

theorem store_blocks_eq (rslt : List (ℚ × List (ℚ × ℚ)))
    (base : List (ℚ × ℚ))
    (hbase : dictGet rslt 0 = some base) (hb : 4 ≤ base.length) :
    ∀ l : List (ℚ × List (ℚ × ℚ)),
      (∀ p ∈ l, ∃ lv, dictGet rslt p.1 = some lv ∧ 4 ≤ lv.length) →
      ∃ blocks,
        optMap (fun p =>
            (optMap (fun ic => storeRow rslt p.1 ic.1 ic.2)
              CHOICE_LIST.enum).map (fun rows => LogBlock.mk p.1 rows)) l
          = some blocks ∧
        blocks.length = l.length ∧
        ∀ b ∈ blocks, ∀ i : Fin 4,
          (b.rows.getD i ⟨"", 0, 0, 0⟩).baseline = (base.getD i (0, 0)).1 := by
  intro l
  induction l with
  | nil => exact fun _ => ⟨[], rfl, rfl, by simp⟩
  | cons p l ih =>
      intro hl
      rcases hl p (List.mem_cons_self p l) with ⟨lv, hlv, hl4⟩
      rcases ih (fun q hq => hl q (List.mem_cons_of_mem p hq)) with
        ⟨blocks, h1, h2, h3⟩
      refine ⟨LogBlock.mk p.1
          [⟨"Occupation A", (lv.get ⟨0, by omega⟩).1,
            (base.get ⟨0, by omega⟩).1, (lv.get ⟨0, by omega⟩).2⟩,
           ⟨"Occupation B", (lv.get ⟨1, by omega⟩).1,
            (base.get ⟨1, by omega⟩).1, (lv.get ⟨1, by omega⟩).2⟩,
           ⟨"School", (lv.get ⟨2, by omega⟩).1,
            (base.get ⟨2, by omega⟩).1, (lv.get ⟨2, by omega⟩).2⟩,
           ⟨"Home", (lv.get ⟨3, by omega⟩).1,
            (base.get ⟨3, by omega⟩).1, (lv.get ⟨3, by omega⟩).2⟩]
          :: blocks, ?_, by simp [h2], ?_⟩
      · refine optMap_cons_some _ p l _ blocks ?_ h1
        show (optMap (fun ic => storeRow rslt p.1 ic.1 ic.2)
            CHOICE_LIST.enum).map (fun rows => LogBlock.mk p.1 rows) = _
        rw [storeRows_eq rslt p.1 base lv hbase hb hlv hl4]
        rfl
      · intro b hb2 i
        rcases List.mem_cons.1 hb2 with rfl | hb3
        · fin_cases i <;>
            simp [List.getElem?_eq_getElem (show 0 < base.length by omega),
              List.getElem?_eq_getElem (show 1 < base.length by omega),
              List.getElem?_eq_getElem (show 2 < base.length by omega),
              List.getElem?_eq_getElem (show 3 < base.length by omega)]
        · exact h3 b hb3 i

end Admissible

/-- C10: whenever the results mapping carries the level zero key and
four entries per level, store rslts writes one block per level and the
baseline printed in row i of every block is the first component of entry
i of the level zero value, hence identical across blocks; and a
nonempty mapping without the level zero key makes store rslts fail. -/
theorem Admissible.store_rslts_baseline (rslt : List (ℚ × List (ℚ × ℚ))) :
    ((∃ base, Admissible.dictGet rslt 0 = some base) →
     (∀ p ∈ rslt, 4 ≤ p.2.length) →
      ∃ blocks, Admissible.store_rslts rslt = some blocks ∧
        blocks.length = rslt.length ∧
        ∀ b ∈ blocks, ∀ i : Fin 4,
          (b.rows.getD i ⟨"", 0, 0, 0⟩).baseline
            = (((Admissible.dictGet rslt 0).getD []).getD i (0, 0)).1) ∧
    (rslt ≠ [] → (∀ p ∈ rslt, p.1 ≠ 0) →
      Admissible.store_rslts rslt = none) := by
  constructor
  · rintro ⟨base, hbase⟩ hlen
    have hb : 4 ≤ base.length := by
      rcases Admissible.mem_snd_of_dictGet_eq_some rslt 0 base hbase with
        ⟨q, hq, hv⟩
      rw [← hv]
      exact hlen q hq
    have hmem : ∀ p ∈ rslt, ∃ lv,
        Admissible.dictGet rslt p.1 = some lv ∧ 4 ≤ lv.length := by
      intro p hp
      rcases Admissible.dictGet_eq_some_of_mem rslt p hp with ⟨lv, hlv⟩
      rcases Admissible.mem_snd_of_dictGet_eq_some rslt p.1 lv hlv with
        ⟨q, hq, hv⟩
      exact ⟨lv, hlv, by rw [← hv]; exact hlen q hq⟩
    rcases Admissible.store_blocks_eq rslt base hbase hb rslt hmem with
      ⟨blocks, h1, h2, h3⟩
    refine ⟨blocks, ?_, h2, ?_⟩
    · simpa [Admissible.store_rslts] using h1
    · intro b hb2 i
      rw [hbase]
      simpa using h3 b hb2 i
  · intro hne hkeys
    have h0 : Admissible.dictGet rslt 0 = none := by
      have : rslt.find? (fun p => p.1 == (0 : ℚ)) = none := by
        rw [List.find?_eq_none]
        intro p hp
        simpa using hkeys p hp
      simp [Admissible.dictGet, this]
    cases rslt with
    | nil => exact absurd rfl hne
    | cons p l =>
        have henum : Admissible.CHOICE_LIST.enum
            = [(0, "Occupation A"), (1, "Occupation B"), (2, "School"),
               (3, "Home")] := rfl
        simp [Admissible.store_rslts, Admissible.optMap, henum,
          Admissible.storeRow, h0]

theorem Admissible.store_rslts_baseline_witness :
    (∃ blocks,
      Admissible.store_rslts
          [(0, [(1, 2), (3, 4), (5, 6), (7, 8)]),
           (1 / 100, [(10, 20), (30, 40), (50, 60), (70, 80)])]
        = some blocks ∧
      blocks.length
        = ([(0, [(1, 2), (3, 4), (5, 6), (7, 8)]),
            (1 / 100, [(10, 20), (30, 40), (50, 60), (70, 80)])] :
            List (ℚ × List (ℚ × ℚ))).length ∧
      ∀ b ∈ blocks, ∀ i : Fin 4,
        (b.rows.getD i ⟨"", 0, 0, 0⟩).baseline
          = (((Admissible.dictGet
                [(0, [(1, 2), (3, 4), (5, 6), (7, 8)]),
                 (1 / 100, [(10, 20), (30, 40), (50, 60), (70, 80)])]
                0).getD []).getD i (0, 0)).1) ∧
    Admissible.store_rslts [((1 : ℚ), [(1, 2), (3, 4), (5, 6), (7, 8)])]
      = none :=
  ⟨(Admissible.store_rslts_baseline
      [(0, [(1, 2), (3, 4), (5, 6), (7, 8)]),
       (1 / 100, [(10, 20), (30, 40), (50, 60), (70, 80)])]).1
    ⟨[(1, 2), (3, 4), (5, 6), (7, 8)], rfl⟩
    (by
      intro p hp
      rcases List.mem_cons.1 hp with rfl | hp2
      · norm_num
      · rcases List.mem_cons.1 hp2 with rfl | hp3
        · norm_num
        · simp at hp3),
   (Admissible.store_rslts_baseline
      [((1 : ℚ), [(1, 2), (3, 4), (5, 6), (7, 8)])]).2
    (by simp)
    (by
      intro p hp
      rcases List.mem_cons.1 hp with rfl | hp2
      · norm_num
      · simp at hp2)⟩

namespace Respy

/-- Embedding of split interpolation points evenly for a dense state
space with n sub-state-spaces: integer division of the budget by n for
every entry, then one extra point added to each of the first remainder
entries, in iteration order. -/
def split_interpolation_points_evenly (n points : ℕ) : List ℕ :=
  let interp_points := List.replicate n (points / n)
  let remaining_points := points % n
  (interp_points.take remaining_points).map (fun x => x + 1)
    ++ interp_points.drop remaining_points

/-- Embedding of get not interpolated indicator.  Seeding the global
numpy generator and drawing without replacement is modeled by an
abstract sampler mapping seed, state count and draw count to the list of
chosen indices, so the selection depends on nothing but those
arguments; the indicator starts all false and the chosen positions are
set true. -/
def get_not_interpolated_indicator (choice : ℕ → ℕ → ℕ → List ℕ)
    (interpolation_points n_states seed : ℕ) : List Bool :=
  let indices := choice seed n_states interpolation_points
  indices.foldl (fun acc i => acc.set i true) (List.replicate n_states false)

theorem getD_replicate_lt {α : Type} (n i : ℕ) (a d : α) (h : i < n) :
    (List.replicate n a).getD i d = a := by
  induction n generalizing i with
  | zero => omega
  | succ n ih =>
      cases i with
      | zero => simp [List.replicate_succ]
      | succ i =>
          simp only [List.replicate_succ, List.getD_cons_succ]
          exact ih i (by omega)

theorem count_true_replicate_false (n : ℕ) :
    (List.replicate n false).count true = 0 := by
  induction n with
  | zero => rfl
  | succ n ih =>
      simp [List.replicate_succ,
        List.count_cons_of_ne (by decide : (true : Bool) ≠ false), ih]

theorem count_set_true (l : List Bool) (i : ℕ)
    (h1 : i < l.length) (h2 : l.getD i true = false) :
    (l.set i true).count true = l.count true + 1 := by
  induction l generalizing i with
  | nil => simp at h1
  | cons a l ih =>
      cases i with
      | zero =>
          have ha : a = false := by simpa using h2
          subst ha
          simp [List.set_cons_zero, List.count_cons_self,
            List.count_cons_of_ne (by decide : (true : Bool) ≠ false)]
      | succ i =>
          simp only [List.getD_cons_succ] at h2
          cases a with
          | true =>
              simp only [List.set_cons_succ, List.count_cons_self]
              rw [ih i (by simpa using h1) h2]
          | false =>
              simp only [List.set_cons_succ,
                List.count_cons_of_ne (by decide : (true : Bool) ≠ false)]
              exact ih i (by simpa using h1) h2

theorem getD_set_ne {α : Type} (l : List α) (i j : ℕ) (x d : α)
    (h : j ≠ i) : (l.set i x).getD j d = l.getD j d := by
  induction l generalizing i j with
  | nil => simp
  | cons a l ih =>
      cases i with
      | zero =>
          cases j with
          | zero => omega
          | succ j => simp [List.set_cons_zero, List.getD_cons_succ]
      | succ i =>
          cases j with
          | zero => simp [List.set_cons_succ]
          | succ j =>
              simp only [List.set_cons_succ, List.getD_cons_succ]
              exact ih i j (by omega)

theorem foldl_set_true_count (idxs : List ℕ) (l : List Bool)
    (hnd : idxs.Nodup)
    (hlt : ∀ i ∈ idxs, i < l.length ∧ l.getD i true = false) :
    (idxs.foldl (fun acc i => acc.set i true) l).count true
      = l.count true + idxs.length := by
  induction idxs generalizing l with
  | nil => simp
  | cons a idxs ih =>
      rcases List.nodup_cons.1 hnd with ⟨ha, hnd2⟩
      rcases hlt a (List.mem_cons_self a idxs) with ⟨ha1, ha2⟩
      have hrest : ∀ i ∈ idxs, i < (l.set a true).length ∧
          (l.set a true).getD i true = false := by
        intro i hi
        have hne : i ≠ a := fun he => ha (he ▸ hi)
        refine ⟨by simpa using (hlt i (List.mem_cons_of_mem a hi)).1, ?_⟩
        rw [getD_set_ne l a i true true hne]
        exact (hlt i (List.mem_cons_of_mem a hi)).2
      simp only [List.foldl_cons]
      rw [ih (l.set a true) hnd2 hrest, count_set_true l a ha1 ha2,
        List.length_cons]
      omega

end Respy

/-- C7: with at least one dense sub-state-space, the even split has one
entry per sub-state-space, entry i is the integer quotient plus one
exactly for the first remainder entries, and the entries sum to the full
budget. -/
theorem Respy.split_interpolation_points_evenly_spec (n points : ℕ)
    (hn : 1 ≤ n) :
    (Respy.split_interpolation_points_evenly n points).length = n ∧
    (∀ i : ℕ, i < n →
      (Respy.split_interpolation_points_evenly n points).getD i 0
        = points / n + (if i < points % n then 1 else 0)) ∧
    (Respy.split_interpolation_points_evenly n points).sum = points := by
  have hrn : points % n < n := Nat.mod_lt _ (by omega)
  have hform : Respy.split_interpolation_points_evenly n points
      = List.replicate (points % n) (points / n + 1)
        ++ List.replicate (n - points % n) (points / n) := by
    simp [Respy.split_interpolation_points_evenly, List.take_replicate,
      List.drop_replicate, List.map_replicate, Nat.min_eq_left (le_of_lt hrn)]
  refine ⟨?_, ?_, ?_⟩
  · simp [hform]
    omega
  · intro i hi
    rw [hform]
    by_cases hir : i < points % n
    · rw [List.getD_append _ _ _ _ (by simpa using hir),
        Respy.getD_replicate_lt _ _ _ _ hir]
      simp [hir]
    · rw [List.getD_append_right _ _ _ _ (by simpa using hir),
        Respy.getD_replicate_lt _ _ _ _ (by simp; omega)]
      simp [hir]
  · rw [hform]
    simp only [List.sum_append, List.sum_replicate, smul_eq_mul]
    have h1 : (points % n) * (points / n + 1)
        = (points % n) * (points / n) + points % n := Nat.mul_succ _ _
    have h2 : (n - points % n) * (points / n)
        = n * (points / n) - (points % n) * (points / n) :=
      Nat.sub_mul _ _ _
    have h3 : (points % n) * (points / n) ≤ n * (points / n) :=
      Nat.mul_le_mul_right _ (le_of_lt hrn)
    have key : n * (points / n) + points % n = points := Nat.div_add_mod _ _
    omega

theorem Respy.split_interpolation_points_evenly_spec_witness :
    1 ≤ 3 ∧
    ((Respy.split_interpolation_points_evenly 3 7).length = 3 ∧
     (∀ i : ℕ, i < 3 →
       (Respy.split_interpolation_points_evenly 3 7).getD i 0
         = 7 / 3 + (if i < 7 % 3 then 1 else 0)) ∧
     (Respy.split_interpolation_points_evenly 3 7).sum = 7) :=
  ⟨by decide, Respy.split_interpolation_points_evenly_spec 3 7 (by decide)⟩

/-- C6: with a sampler honoring the numpy contract for drawing without
replacement, namely as many pairwise distinct indices as interpolation
points and all indices below the state count, two calls with equal
seeds return the same indicator array, and the array carries exactly
interpolation points true entries. -/
theorem Respy.get_not_interpolated_indicator_spec
    (choice : ℕ → ℕ → ℕ → List ℕ)
    (interpolation_points n_states seed seed2 : ℕ)
    (hseed : seed = seed2)
    (hlen : (choice seed n_states interpolation_points).length
      = interpolation_points)
    (hnd : (choice seed n_states interpolation_points).Nodup)
    (hlt : ∀ i ∈ choice seed n_states interpolation_points, i < n_states) :
    Respy.get_not_interpolated_indicator choice interpolation_points n_states
        seed
      = Respy.get_not_interpolated_indicator choice interpolation_points
          n_states seed2 ∧
    (Respy.get_not_interpolated_indicator choice interpolation_points n_states
        seed).count true = interpolation_points := by
  subst hseed
  refine ⟨rfl, ?_⟩
  simp only [Respy.get_not_interpolated_indicator]
  rw [Respy.foldl_set_true_count _ _ hnd ?_]
  · rw [Respy.count_true_replicate_false, hlen]
    omega
  · intro i hi
    exact ⟨by simpa using hlt i hi,
      Respy.getD_replicate_lt _ _ _ _ (hlt i hi)⟩

theorem Respy.get_not_interpolated_indicator_spec_witness :
    ((fun (_ _ p : ℕ) => List.range p) 7 3 2).Nodup ∧
    (Respy.get_not_interpolated_indicator (fun _ _ p => List.range p) 2 3 7
       = Respy.get_not_interpolated_indicator (fun _ _ p => List.range p) 2 3
           7 ∧
     (Respy.get_not_interpolated_indicator (fun _ _ p => List.range p) 2 3
        7).count true = 2) :=
  ⟨by decide,
    Respy.get_not_interpolated_indicator_spec (fun _ _ p => List.range p)
      2 3 7 7 rfl (by decide) (by decide) (by decide)⟩

namespace Scalability

/-- Right justification of a string to a minimum field width with
spaces, the embedding of the format specifier with right alignment. -/
def rjust (w : ℕ) (s : String) : String :=
  String.mk (List.replicate (w - s.length) ' ') ++ s

/-- One formatted line of the scalability report: four right justified
fields of widths 15, 25, 25 and 15, separated by single spaces, with a
trailing line break. -/
def fmtRow (a b c d : String) : String :=
  rjust 15 a ++ " " ++ rjust 25 b ++ " " ++ rjust 25 c ++ " " ++ rjust 15 d
    ++ "\n"

/-- Header block written when the report file does not exist yet. -/
def headerText : String :=
  "\n Time\n\n" ++ fmtRow "Slaves" "Start" "Stop" "Duration" ++ "\n"

/-- Arguments of one record information call: the slave count and the
start, stop and duration strings; the strftime and strfdelta rendering
is performed by library and sibling module code. -/
structure RecordArgs where
  num_slaves : ℤ
  start_str : String
  finish_str : String
  duration_str : String

/-- Data row appended by one record information call. -/
def dataRow (a : RecordArgs) : String :=
  fmtRow (toString a.num_slaves) a.start_str a.finish_str a.duration_str

/-- Embedding of record information as a transformer of the report file
contents, where none stands for a missing file: the header block is
written first when the file does not exist, then one data row is
appended. -/
def record_information (fs : Option String) (a : RecordArgs) :
    Option String :=
  match fs with
  | some c => some (c ++ dataRow a)
  | none => some (headerText ++ dataRow a)

/-- Concatenation of the data rows of a sequence of calls. -/
def joinRows (calls : List RecordArgs) : String :=
  calls.foldr (fun a s => dataRow a ++ s) ""

theorem string_append_assoc (a b c : String) :
    a ++ b ++ c = a ++ (b ++ c) := by
  cases a; cases b; cases c
  show String.mk _ = String.mk _
  simp [String.append]

theorem foldl_record_some (calls : List RecordArgs) :
    ∀ c : String,
      calls.foldl record_information (some c) = some (c ++ joinRows calls) := by
  induction calls with
  | nil =>
      intro c
      simp [joinRows, String.append_empty]
  | cons a l ih =>
      intro c
      simp only [List.foldl_cons, record_information]
      rw [ih (c ++ dataRow a)]
      simp [joinRows, string_append_assoc]

end Scalability

/-- C9: folding record information over a sequence of calls appends
exactly one data row per call; starting from an existing file the
contents grow by exactly the rows, and starting from a missing file the
header block is written exactly once, by the first call, followed by one
row per call. -/
theorem Scalability.record_information_spec
    (calls : List Scalability.RecordArgs) (c : String) :
    (calls.foldl Scalability.record_information (some c)
      = some (c ++ Scalability.joinRows calls)) ∧
    (calls ≠ [] →
      calls.foldl Scalability.record_information none
        = some (Scalability.headerText ++ Scalability.joinRows calls)) := by
  constructor
  · exact Scalability.foldl_record_some calls c
  · intro hne
    cases calls with
    | nil => exact absurd rfl hne
    | cons a l =>
        simp only [List.foldl_cons, Scalability.record_information]
        rw [Scalability.foldl_record_some l
          (Scalability.headerText ++ Scalability.dataRow a)]
        simp [Scalability.joinRows, Scalability.string_append_assoc]

theorem Scalability.record_information_spec_witness :
    ([Scalability.RecordArgs.mk 2 "a" "b" "c"] :
        List Scalability.RecordArgs) ≠ [] ∧
    ([Scalability.RecordArgs.mk 2 "a" "b" "c"].foldl
        Scalability.record_information (some "x")
      = some ("x"
          ++ Scalability.joinRows [Scalability.RecordArgs.mk 2 "a" "b" "c"]) ∧
     (([Scalability.RecordArgs.mk 2 "a" "b" "c"] :
          List Scalability.RecordArgs) ≠ [] →
       [Scalability.RecordArgs.mk 2 "a" "b" "c"].foldl
           Scalability.record_information none
         = some (Scalability.headerText
             ++ Scalability.joinRows
                 [Scalability.RecordArgs.mk 2 "a" "b" "c"]))) :=
  ⟨by simp,
    Scalability.record_information_spec
      [Scalability.RecordArgs.mk 2 "a" "b" "c"] "x"⟩
